import Mathlib

/-!
# WireCell DFT tools and ProtoDUNE sticky-code interpolation

A shallow embedding of `aux/inc/WireCellAux/DftTools.h` (the `std::vector`
wrappers around a DFT capability, and the declared `convolve`) and of
`LinearInterpSticky`, declared in `sigproc/inc/WireCellSigProc/Protodune.h`.

Samples are taken from an arbitrary type `R`; the wrappers of `DftTools.h`
never do arithmetic on them, so what is proved about the wrappers holds for
`float` as for any other sample type.  Where arithmetic is needed (convolution,
interpolation) `R` is a commutative ring or an ordered field and the results
are statements of exact arithmetic.
-/

namespace WireCell

namespace Aux

/-- A complex sample, `IDFT::complex_t` (a `std::complex` over the sample
type): `complex_t(re, im)` builds one, `std::real` reads `re`. -/
structure complex_t (R : Type) where
  re : R
  im : R
deriving DecidableEq

/-- The type `real_vector_t`, a `std::vector` of real samples. -/
abbrev real_vector_t (R : Type) := List R

/-- The type `complex_vector_t`, a `std::vector` of complex samples. -/
abbrev complex_vector_t (R : Type) := List (complex_t R)

/-- A buffer of exactly `N` complex samples: what a `complex_t*` together with
the size `N` stands for in a call of the capability. -/
abbrev cbuf (R : Type) (N : Nat) := {l : List (complex_t R) // l.length = N}

/-- The DFT capability behind `IDFT::pointer`, a parameter of every wrapper.
Its header `WireCellIface/IDFT.h` is not among the sources, so the two
transforms are arbitrary: a call `fwd1d(in, out, N)` or `inv1d(in, out, N)`
reads `N` samples at `in` and leaves `N` samples at `out`, and nothing is
assumed about what it computes. -/
structure IDFT (R : Type) where
  fwd1d : (N : Nat) → cbuf R N → cbuf R N
  inv1d : (N : Nat) → cbuf R N → cbuf R N

variable {R : Type}

/-- Perform forward c2c transform on vector (`DftTools.h`, `fwd`): a result
vector of `seq.size()` elements is allocated and filled by one call
`dft->fwd1d(seq.data(), ret.data(), ret.size())`. -/
def fwd (dft : IDFT R) (seq : complex_vector_t R) : complex_vector_t R :=
  (dft.fwd1d seq.length ⟨seq, rfl⟩).val

/-- Perform forward r2c transform on vector (`DftTools.h`, `fwd_r2c`): every
real sample `re` becomes `complex_t(re, 0.0)`, then `fwd`. -/
def fwd_r2c [Zero R] (dft : IDFT R) (vec : real_vector_t R) : complex_vector_t R :=
  let cvec : complex_vector_t R := vec.map (fun re => complex_t.mk re 0)
  fwd dft cvec

/-- Perform inverse c2c transform on vector (`DftTools.h`, `inv`). -/
def inv (dft : IDFT R) (spec : complex_vector_t R) : complex_vector_t R :=
  (dft.inv1d spec.length ⟨spec, rfl⟩).val

/-- Perform inverse c2r transform on vector (`DftTools.h`, `inv_c2r`): `inv`,
then `std::real` of every element. -/
def inv_c2r (dft : IDFT R) (spec : complex_vector_t R) : real_vector_t R :=
  let cvec := inv dft spec
  cvec.map (fun c => c.re)

/-- The capability's inverse 1D transform undoes its forward 1D transform at
every length `N` (the normalization convention). -/
def IDFT.RoundTrip (dft : IDFT R) : Prop :=
  ∀ (N : Nat) (v : cbuf R N), dft.inv1d N (dft.fwd1d N v) = v

/-! ### Complex arithmetic used in the frequency domain

Only the product is embedded, as the exact product over a commutative ring;
what is proved of it below is its commutativity. -/

/-- Product of two complex samples, `operator*` of `std::complex`. -/
def complex_t.mul [Ring R] (a b : complex_t R) : complex_t R :=
  ⟨a.re * b.re - a.im * b.im, a.re * b.im + a.im * b.re⟩

/-! ### High-level 1D interface: `convolve`

`DftTools.h` only declares the function; its body is in a source file that is
not among the sources. -/

/-- Modelled from the spec: the zero-padding step of `convolve`
("zero-pad both inputs to the output length"), whose body is not among the
sources.  A real sequence becomes a complex buffer of exactly `size` samples
with imaginary part zero: sample `i` of the input where it has one, zero
elsewhere. -/
def zero_pad [Zero R] (size : Nat) (v : real_vector_t R) : complex_vector_t R :=
  (List.range size).map (fun i => complex_t.mk (v.getD i 0) 0)

/-- Modelled from the spec: `Aux::convolve`, declared in `DftTools.h` with its
body missing from the sources.  Header: "Returned vector has size sum of sizes of
in1 and in2 less one element".  Spec: "zero-pad both inputs to the output
length, transform both, multiply elementwise in the frequency domain,
inverse-transform, keep the real part".  Sizes are natural numbers, so two
empty inputs give the output length zero. -/
def convolve [CommRing R] (dft : IDFT R) (in1 in2 : real_vector_t R) : real_vector_t R :=
  let size := in1.length + in2.length - 1
  let s1 := fwd dft (zero_pad size in1)
  let s2 := fwd dft (zero_pad size in2)
  inv_c2r dft (List.zipWith complex_t.mul s1 s2)

/-! ### A concrete capability over the rationals

A capability used to evaluate the wrappers on concrete inputs: the discrete
Fourier transform at the lengths 1 and 2 (at length 2 the butterfly
`(a, b) ↦ (a + b, a - b)`), passing buffers of other lengths through
unchanged. -/

/-- The length-2 butterfly on a list of complex samples, scaled by `s`. -/
def butterfly (s : ℚ) (l : List (complex_t ℚ)) : List (complex_t ℚ) :=
  match l with
  | [a, b] => [⟨s * (a.re + b.re), s * (a.im + b.im)⟩, ⟨s * (a.re - b.re), s * (a.im - b.im)⟩]
  | _ => l

/-- A capability with the normalized inverse: at length 2 the inverse carries
the factor 1/2, so the inverse undoes the forward transform. -/
def dft_normalized : IDFT ℚ where
  fwd1d := fun _ v => ⟨butterfly 1 v.val, by
    rcases v with ⟨l, rfl⟩
    rcases l with _ | ⟨a, _ | ⟨b, _ | ⟨c, t⟩⟩⟩ <;> rfl⟩
  inv1d := fun _ v => ⟨butterfly (1 / 2) v.val, by
    rcases v with ⟨l, rfl⟩
    rcases l with _ | ⟨a, _ | ⟨b, _ | ⟨c, t⟩⟩⟩ <;> rfl⟩

end Aux

namespace SigProc

namespace Protodune

variable {R : Type}

end Protodune

end SigProc

end WireCell

/-! ## Properties of the `std::vector` wrappers of `DftTools.h` -/

namespace WireCell

namespace Aux

variable {R : Type}

/-- Calling a size-indexed transform at the length of a buffer of `N` samples
is calling it at `N`. -/
theorem val_at_length {α : Type} {N : Nat}
    (g : (n : Nat) → {l : List α // l.length = n} → {l : List α // l.length = n})
    (v : {l : List α // l.length = N}) :
    (g v.val.length ⟨v.val, rfl⟩).val = (g N v).val := by
  obtain ⟨l, hl⟩ := v
  subst hl
  rfl

theorem fwd_length (dft : IDFT R) (seq : complex_vector_t R) :
    (fwd dft seq).length = seq.length :=
  (dft.fwd1d seq.length ⟨seq, rfl⟩).property

theorem inv_length (dft : IDFT R) (spec : complex_vector_t R) :
    (inv dft spec).length = spec.length :=
  (dft.inv1d spec.length ⟨spec, rfl⟩).property

theorem inv_fwd_eq (dft : IDFT R) (h : dft.RoundTrip) (x : complex_vector_t R) :
    inv dft (fwd dft x) = x := by
  unfold inv fwd
  rw [val_at_length dft.inv1d (dft.fwd1d x.length ⟨x, rfl⟩), h]

/-- The length-2 butterfly with factor 1/2 undoes the bare butterfly. -/
theorem butterfly_half_butterfly (l : List (complex_t ℚ)) :
    butterfly (1 / 2) (butterfly 1 l) = l := by
  rcases l with _ | ⟨a, _ | ⟨b, _ | ⟨c, t⟩⟩⟩
  · rfl
  · rfl
  · obtain ⟨ar, ai⟩ := a
    obtain ⟨br, bi⟩ := b
    simp only [butterfly, List.cons.injEq, complex_t.mk.injEq, and_true]
    refine ⟨⟨?_, ?_⟩, ⟨?_, ?_⟩⟩ <;> ring
  · rfl

theorem dft_normalized_roundtrip : dft_normalized.RoundTrip := by
  intro N v
  apply Subtype.ext
  exact butterfly_half_butterfly v.val

/-- C1. Round trip: for every DFT capability whose inverse 1D transform undoes
its forward 1D transform at every length, and every complex sequence `x` (the
empty one included), `inv(dft, fwd(dft, x))` equals `x` element for element
and has the length of `x`. -/
theorem inv_fwd_roundtrip (dft : IDFT R) (h : dft.RoundTrip) (x : complex_vector_t R) :
    inv dft (fwd dft x) = x ∧ (inv dft (fwd dft x)).length = x.length ∧
      ∀ i : Nat, (inv dft (fwd dft x))[i]? = x[i]? := by
  rw [inv_fwd_eq dft h x]
  exact ⟨rfl, rfl, fun _ => rfl⟩

/-- The round trip of C1 on the normalized capability at a sequence of two
complex samples. -/
theorem inv_fwd_roundtrip_witness :
    dft_normalized.RoundTrip ∧
      inv dft_normalized (fwd dft_normalized [⟨1, 2⟩, ⟨3, 4⟩]) = [⟨1, 2⟩, ⟨3, 4⟩] :=
  ⟨dft_normalized_roundtrip,
    (inv_fwd_roundtrip dft_normalized dft_normalized_roundtrip [⟨1, 2⟩, ⟨3, 4⟩]).1⟩

/-- C5. The 1D complex transforms are length-preserving and purely delegated:
`fwd(dft, seq)` and `inv(dft, seq)` have exactly `seq.size()` elements and are
the output of one call of the forward (inverse) 1D transform of the capability
on `seq` with `N = seq.size()`, nothing padded, cut or rescaled. -/
theorem fwd_inv_delegated (dft : IDFT R) (seq : complex_vector_t R) :
    (fwd dft seq).length = seq.length ∧ (inv dft seq).length = seq.length ∧
      fwd dft seq = (dft.fwd1d seq.length ⟨seq, rfl⟩).val ∧
      inv dft seq = (dft.inv1d seq.length ⟨seq, rfl⟩).val :=
  ⟨fwd_length dft seq, inv_length dft seq, rfl, rfl⟩

/-- C6. For every real sequence `vec`, `fwd_r2c(dft, vec)` equals `fwd(dft, c)`
for the complex sequence `c` of the same length whose element `i` has real part
`vec[i]` and imaginary part zero. -/
theorem fwd_r2c_eq_fwd [Zero R] (dft : IDFT R) (vec : real_vector_t R)
    (c : complex_vector_t R) (hlen : c.length = vec.length)
    (hc : ∀ (i : Nat) (h1 : i < c.length) (h2 : i < vec.length),
      (c.get ⟨i, h1⟩).re = vec.get ⟨i, h2⟩ ∧ (c.get ⟨i, h1⟩).im = 0) :
    fwd_r2c dft vec = fwd dft c := by
  have hmap : vec.map (fun re => complex_t.mk re 0) = c := by
    apply List.ext_get
    · simp [hlen]
    · intro i h1 h2
      have h3 : i < vec.length := by simpa using h1
      obtain ⟨hr, hi⟩ := hc i h2 h3
      cases hci : c.get ⟨i, h2⟩ with
      | mk re im =>
        rw [hci] at hr hi
        simp only at hr hi
        subst hi
        simp [hr]
  unfold fwd_r2c
  simp only [hmap]

/-- The statement of C6 at the real sequence `[3, 5]` and its complex lift. -/
theorem fwd_r2c_eq_fwd_witness :
    fwd_r2c dft_normalized [3, 5] = fwd dft_normalized [⟨3, 0⟩, ⟨5, 0⟩] :=
  fwd_r2c_eq_fwd dft_normalized [3, 5] [⟨3, 0⟩, ⟨5, 0⟩] rfl (by
    intro i h1 h2
    have hi : i < 2 := h2
    interval_cases i <;> exact ⟨rfl, rfl⟩)

/-- C7. For every complex sequence `spec`, `inv_c2r(dft, spec)` has the length
of `spec` and its element `i` is the real part of element `i` of
`inv(dft, spec)`; the imaginary parts have no effect on the result: two
capabilities whose inverse outputs agree in every real part give the same
result. -/
theorem inv_c2r_real_part (dft : IDFT R) (spec : complex_vector_t R) :
    (inv_c2r dft spec).length = spec.length ∧
      (∀ i : Nat, (inv_c2r dft spec)[i]? = ((inv dft spec)[i]?).map (fun c => c.re)) ∧
      (∀ other : IDFT R,
        (∀ i : Nat, ((inv other spec)[i]?).map (fun c => c.re)
          = ((inv dft spec)[i]?).map (fun c => c.re)) →
        inv_c2r other spec = inv_c2r dft spec) := by
  refine ⟨?_, ?_, ?_⟩
  · simp [inv_c2r, inv_length]
  · intro i
    simp [inv_c2r]
  · intro other h
    apply List.ext_getElem?
    intro i
    simpa [inv_c2r] using h i

/-- C10. Real round trip: for every DFT capability whose inverse 1D transform
undoes its forward 1D transform at every length, and every real sequence `v`,
`inv_c2r(dft, fwd_r2c(dft, v))` equals `v` element for element and has the
length of `v`. -/
theorem inv_c2r_fwd_r2c_roundtrip [Zero R] (dft : IDFT R) (h : dft.RoundTrip)
    (v : real_vector_t R) :
    inv_c2r dft (fwd_r2c dft v) = v ∧ (inv_c2r dft (fwd_r2c dft v)).length = v.length ∧
      ∀ i : Nat, (inv_c2r dft (fwd_r2c dft v))[i]? = v[i]? := by
  have key : inv_c2r dft (fwd_r2c dft v) = v := by
    unfold inv_c2r fwd_r2c
    simp only [inv_fwd_eq dft h, List.map_map]
    exact List.map_id v
  rw [key]
  exact ⟨rfl, rfl, fun _ => rfl⟩

/-- The real round trip of C10 on the normalized capability at `[3, 5]`. -/
theorem inv_c2r_fwd_r2c_roundtrip_witness :
    dft_normalized.RoundTrip ∧
      inv_c2r dft_normalized (fwd_r2c dft_normalized [3, 5]) = [3, 5] :=
  ⟨dft_normalized_roundtrip,
    (inv_c2r_fwd_r2c_roundtrip dft_normalized dft_normalized_roundtrip [3, 5]).1⟩

/-! ## Properties of `convolve` -/

theorem zero_pad_length [Zero R] (size : Nat) (v : real_vector_t R) :
    (zero_pad size v).length = size := by
  simp [zero_pad]

theorem inv_c2r_length (dft : IDFT R) (spec : complex_vector_t R) :
    (inv_c2r dft spec).length = spec.length := by
  simp [inv_c2r, inv_length]

theorem complex_mul_comm [CommRing R] (a b : complex_t R) :
    complex_t.mul a b = complex_t.mul b a := by
  simp only [complex_t.mul, complex_t.mk.injEq]
  constructor <;> ring

theorem zipWith_complex_mul_comm [CommRing R] (l1 l2 : List (complex_t R)) :
    List.zipWith complex_t.mul l1 l2 = List.zipWith complex_t.mul l2 l1 := by
  induction l1 generalizing l2 with
  | nil => cases l2 <;> rfl
  | cons a t ih =>
    cases l2 with
    | nil => rfl
    | cons b u => simp only [List.zipWith_cons_cons, ih u, complex_mul_comm a b]

/-- C2. For all real sequences `a` and `b` and every DFT capability,
`convolve(dft, a, b)` has exactly `len(a) + len(b) - 1` elements.  Lengths are
natural numbers, so two empty inputs give the empty result; whenever an input
is non-empty the result has one element less than the two inputs together. -/
theorem convolve_length [CommRing R] (dft : IDFT R) (a b : real_vector_t R) :
    (convolve dft a b).length = a.length + b.length - 1 ∧
      (a ≠ [] ∨ b ≠ [] → (convolve dft a b).length + 1 = a.length + b.length) := by
  have hlen : (convolve dft a b).length = a.length + b.length - 1 := by
    simp [convolve, inv_c2r_length, fwd_length, zero_pad_length]
  refine ⟨hlen, fun hne => ?_⟩
  have hpos : 0 < a.length + b.length := by
    rcases hne with h | h
    · have := List.length_pos.mpr h
      omega
    · have := List.length_pos.mpr h
      omega
  omega

/-- C3. Convolution is commutative: for all real sequences `a` and `b` and
every DFT capability, `convolve(dft, a, b)` equals `convolve(dft, b, a)`, with
the same length and the same value at every index. -/
theorem convolve_comm [CommRing R] (dft : IDFT R) (a b : real_vector_t R) :
    convolve dft a b = convolve dft b a ∧
      (convolve dft a b).length = (convolve dft b a).length ∧
      ∀ i : Nat, (convolve dft a b)[i]? = (convolve dft b a)[i]? := by
  have key : convolve dft a b = convolve dft b a := by
    unfold convolve
    simp only [Nat.add_comm b.length a.length]
    rw [zipWith_complex_mul_comm]
  rw [key]
  exact ⟨rfl, rfl, fun _ => rfl⟩

end Aux

end WireCell

/-! ## Properties of `LinearInterpSticky` -/

namespace WireCell

namespace SigProc

namespace Protodune

variable {R : Type}

end Protodune

end SigProc

end WireCell
